import Mathlib

/-!
Shallow embedding of the cgir infrared codec and capture callback
(`src/cgir/infrared.py`) together with proofs about its specification.

Conventions of the embedding:
* a timing code is a `List ℤ` of mark/space durations (the NEC inter-frame
  wait can go negative, see `waitVal`);
* frames are `List (List ℕ)` byte lists;
* Python floats appear only in `_cl` and the `0.5 * 10000` comparison; both
  are exact at the values used, and are modelled over `ℚ` (`cl`) with an
  equivalent integer form (`clI`, bridged by `clI_eq_cl`);
* a fallible function returns `Except PyErr`, and `decode`
  (which can fall off its scan loop, returning Python `None`, or raise
  `IndexError`) returns the three-valued `DecodeOut`;
* the two decode scan loops walk the code by index `i` in steps of two;
  they are embedded on the remaining suffix `code[i:]`, so that
  `i == len(code)-1` becomes "one element remains", `i == len(code)-2`
  becomes "two elements remain" and `i <= len(code)-3` becomes "at least
  three elements remain".
-/

/-- IR protocol formats (the `FORMAT_*` constants of infrared.py). -/
inductive IRFormat where
  | unknown
  | aeha
  | nec
  | sony
  deriving DecidableEq, Repr

/-- Python exceptions the embedded code can raise. -/
inductive PyErr where
  | valueError
  | indexError
  deriving DecidableEq, Repr

/-- Result of `Infrared.decode`.  Beside the normal pair `(format, frames)`
the Python function can also fall off the end of its scan loop (implicitly
returning `None`) or raise `IndexError`; both are represented explicitly. -/
inductive DecodeOut where
  | tuple (fmt : IRFormat) (frames : List (List ℕ))
  | pyNone
  | err (e : PyErr)
  deriving DecidableEq, Repr

instance : DecidableEq (Except PyErr (List ℤ)) := fun x y =>
  match x, y with
  | .ok a, .ok b => decidable_of_iff (a = b) (by simp)
  | .error a, .error b => decidable_of_iff (a = b) (by simp)
  | .ok _, .error _ => isFalse (by simp)
  | .error _, .ok _ => isFalse (by simp)

/-- `_T_MAX_GAP` (line 22): gaps longer than this end a recording. -/
def T_MAX_GAP : ℕ := 60000

/-- `_T_AEHA` (line 23): AEHA base period in µs. -/
def T_AEHA : ℤ := 425

/-- `_T_NEC` (line 24): NEC base period in µs. -/
def T_NEC : ℤ := 560

/-- `_T_SONY` (line 25): SONY base period in µs. -/
def T_SONY : ℤ := 600

/-- `_T_WAIT` (line 26): inter-frame wait used by encode/decode, in µs. -/
def T_WAIT : ℤ := 10000

/-- The default tolerance of `Infrared._cl` (`tol=0.35`). -/
def tolDefault : ℚ := 35 / 100

/-- `Infrared._cl(length, target, tol)` (lines 462-477): true iff
`target*(1-tol) < length` and `length < target*(1+tol)`, both strict. -/
def cl (length target tol : ℚ) : Bool :=
  decide (target * (1 - tol) < length ∧ length < target * (1 + tol))

/-- `_cl` at the default tolerance `0.35` on the integer mark/space lengths
the decoder compares: the comparison `target*0.65 < length < target*1.35`
multiplied through by 100 (exact, see `clI_eq_cl`). -/
def clI (length target : ℤ) : Bool :=
  decide (65 * target < 100 * length ∧ 100 * length < 135 * target)

/-- `Infrared._round(n, m) = (n + m//2)//m*m` (line 181).  Python `//` is
floor division, which agrees with Lean's Euclidean `Int` division for the
positive divisors (2, 10, 50, 100, 200) this program uses. -/
def pyround (n m : ℤ) : ℤ := (n + m / 2) / m * m

/-- `pigpio.tickDiff`: 32-bit wraparound difference between two µs ticks. -/
def tickDiff (t1 t2 : ℕ) : ℕ := if t1 ≤ t2 then t2 - t1 else t2 + 2 ^ 32 - t1

/-- Base period `t` selected for each format (lines 239-246, 341-349). -/
def tOf : IRFormat → ℤ
  | .unknown => 0
  | .aeha => T_AEHA
  | .nec => T_NEC
  | .sony => T_SONY

/-! ### encode (lines 223-319) -/

/-- Data-bit emission of `encode` for AEHA/NEC (lines 278-291): for each of
the `n` low-order bits of `d`, LSB first, emit `(t, t)` for a 0 bit and
`(t, 3t)` for a 1 bit. -/
def encodeBitsAN (t : ℤ) (d : ℕ) : ℕ → List ℤ
  | 0 => []
  | n + 1 => t :: (if d % 2 = 0 then t else t * 3) :: encodeBitsAN t (d / 2) n

/-- Unit count of the AEHA/NEC bit loop (`t_count += 2` for a 0 bit,
`+= 4` for a 1 bit; lines 286, 290). -/
def tCountBitsAN (d : ℕ) : ℕ → ℕ
  | 0 => 0
  | n + 1 => (if d % 2 = 0 then 2 else 4) + tCountBitsAN (d / 2) n

/-- Data-bit emission of `encode` for SONY (lines 301-311): `(t, t)` for a
0 bit and `(t, 2t)` for a 1 bit, LSB first. -/
def encodeBitsSony (t : ℤ) (d : ℕ) : ℕ → List ℤ
  | 0 => []
  | n + 1 => t :: (if d % 2 = 0 then t else t * 2) :: encodeBitsSony t (d / 2) n

/-- Unit count of the SONY bit loop (`t_count += 2` / `+= 3`). -/
def tCountBitsSony (d : ℕ) : ℕ → ℕ
  | 0 => 0
  | n + 1 => (if d % 2 = 0 then 2 else 3) + tCountBitsSony (d / 2) n

/-- Leader emitted at the start of each AEHA/NEC frame (lines 262-270). -/
def leaderAN (fmt : IRFormat) : List ℤ :=
  match fmt with
  | .aeha => [T_AEHA * 8, T_AEHA * 4]
  | .nec => [T_NEC * 16, T_NEC * 8]
  | _ => []

/-- Leader unit count (`t_count += 12` for AEHA, `+= 24` for NEC). -/
def leaderTCountAN (fmt : IRFormat) : ℕ :=
  match fmt with
  | .aeha => 12
  | .nec => 24
  | _ => 0

/-- Data part of one AEHA/NEC frame: 8 bits LSB-first per byte, in order. -/
def frameData (t : ℤ) (frame : List ℕ) : List ℤ :=
  frame.flatMap (fun byte => encodeBitsAN t byte 8)

/-- `t_count` accumulated over one AEHA/NEC frame (leader + data bits). -/
def frameTCountAN (fmt : IRFormat) (frame : List ℕ) : ℕ :=
  leaderTCountAN fmt + (frame.map (fun byte => tCountBitsAN byte 8)).sum

/-- Inter-frame wait space (lines 252-258), computed from the previous
frame's accumulated unit count. -/
def waitVal (fmt : IRFormat) (prevTC : ℕ) : ℤ :=
  match fmt with
  | .aeha => T_WAIT
  | .nec => pyround (108000 - T_NEC * prevTC) 100
  | .sony => pyround (45000 - T_SONY * prevTC) 100
  | .unknown => 0

/-- Frame loop of `encode` for AEHA/NEC (lines 248-319): wait space when not
the first frame, leader, data bits, trailing stop mark `t`. -/
def encodeANLoop (fmt : IRFormat) : List (List ℕ) → Bool → ℕ → List ℤ
  | [], _, _ => []
  | frame :: rest, first, prevTC =>
    (if first then [] else [waitVal fmt prevTC]) ++ leaderAN fmt
      ++ frameData (tOf fmt) frame ++ [tOf fmt]
      ++ encodeANLoop fmt rest false (frameTCountAN fmt frame)

/-- Bit count of a SONY frame, from the magnitude of `frame[1]`
(lines 294-299: `0x100` → 20 bits, `0x20` → 15 bits, else 12). -/
def sonyBits (b : ℕ) : ℕ := if 256 ≤ b then 20 else if 32 ≤ b then 15 else 12

/-- Frame loop of `encode` for SONY (lines 248-319): wait space when not the
first frame, leader mark `4t`, then 12/15/20 data bits of
`d = frame[0] + (frame[1] << 7)` (line 293).  Accessing `frame[0]` or
`frame[1]` of a frame with fewer than two entries raises `IndexError`. -/
def encodeSonyLoop : List (List ℕ) → Bool → ℕ → Except PyErr (List ℤ)
  | [], _, _ => .ok []
  | frame :: rest, first, prevTC =>
    match frame with
    | a :: b :: _ =>
      match encodeSonyLoop rest false (4 + tCountBitsSony (a + b * 128) (sonyBits b)) with
      | .ok tail =>
        .ok ((if first then [] else [waitVal .sony prevTC]) ++ [T_SONY * 4]
          ++ encodeBitsSony T_SONY (a + b * 128) (sonyBits b) ++ tail)
      | .error e => .error e
    | _ => .error .indexError

/-- `Infrared.encode` (lines 223-319).  An unknown format raises
`ValueError` (line 246). -/
def encode (fmt : IRFormat) (frames : List (List ℕ)) : Except PyErr (List ℤ) :=
  match fmt with
  | .unknown => .error .valueError
  | .aeha => .ok (encodeANLoop .aeha frames true 0)
  | .nec => .ok (encodeANLoop .nec frames true 0)
  | .sony => encodeSonyLoop frames true 0

/-! ### decode (lines 321-460) -/

/-- Outcome of one iteration of the AEHA/NEC scan loop: either the loop
continues at `i+2` with updated accumulators, or the function returns. -/
inductive ANStepRes where
  | cont (frames : List (List ℕ)) (byteList : List ℕ) (byte bitCounter : ℕ)
      (endOfFrame : Bool)
  | ret (out : DecodeOut)
  deriving DecidableEq, Repr

/-- Body of one iteration of the AEHA/NEC decode loop (lines 360-426) at an
index with at least two elements remaining (`i < len(code) - 1`), acting on
the pair `(c0, c1) = (code[i], code[i+1])`.  The comparison
`code[i+1] > _T_WAIT * 0.5` is `5000 < c1` exactly. -/
def anStepBody (fmt : IRFormat) (c0 c1 : ℤ) (frames : List (List ℕ))
    (byteList : List ℕ) (byte bitCounter : ℕ) (endOfFrame : Bool) : ANStepRes :=
  if endOfFrame then
    match fmt with
    | .aeha =>
      if clI c0 (T_AEHA * 8) && clI c1 (T_AEHA * 4) then        -- Leader (line 370)
        .cont frames byteList byte bitCounter false
      else if clI c0 (T_AEHA * 8) && clI c1 (T_AEHA * 8) then   -- Repeat (line 374)
        .cont frames byteList byte bitCounter false
      else .ret (.tuple .unknown [])
    | .nec =>
      if clI c0 (T_NEC * 16) && clI c1 (T_NEC * 8) then         -- Leader (line 381)
        .cont frames byteList byte bitCounter false
      else if clI c0 (T_NEC * 16) && clI c1 (T_NEC * 4) then    -- Repeat (line 385)
        .cont frames byteList byte bitCounter false
      else .ret (.tuple .unknown [])
    | _ => .ret (.tuple .unknown [])  -- unreachable: this loop runs only for AEHA/NEC
  else
    if clI c0 (tOf fmt) && decide (5000 < c1) then              -- stop bit, next frame (403)
      .cont (frames ++ [byteList]) [] 0 bitCounter true
    else if clI c0 (tOf fmt) && clI c1 (tOf fmt) then           -- Data 0 (line 411)
      if (bitCounter + 1) % 8 = 0 then
        .cont frames (byteList ++ [byte]) 0 0 false
      else
        .cont frames byteList byte ((bitCounter + 1) % 8) false
    else if clI c0 (tOf fmt) && clI c1 (tOf fmt * 3) then       -- Data 1 (line 417)
      if (bitCounter + 1) % 8 = 0 then
        .cont frames (byteList ++ [byte + 2 ^ bitCounter]) 0 0 false
      else
        .cont frames byteList (byte + 2 ^ bitCounter) ((bitCounter + 1) % 8) false
    else .ret (.tuple .unknown [])                              -- unknown bit (line 426)

/-- The AEHA/NEC decode loop (`for i in range(2, len(code), 2)`,
lines 359-426) on the remaining suffix `code[i:]`.  An empty suffix means
the loop is exhausted — Python then falls off the function and returns
`None`.  A one-element suffix is `i == len(code) - 1` (lines 364, 394). -/
def anLoop (fmt : IRFormat) :
    List ℤ → List (List ℕ) → List ℕ → ℕ → ℕ → Bool → DecodeOut
  | [], _, _, _, _, _ => .pyNone
  | [c0], frames, byteList, _, bitCounter, endOfFrame =>
    if endOfFrame then .tuple .unknown []                       -- line 364
    else if clI c0 (tOf fmt) && bitCounter == 0 then            -- line 396
      .tuple fmt (frames ++ [byteList])
    else .tuple .unknown []
  | c0 :: c1 :: rest2, frames, byteList, byte, bitCounter, endOfFrame =>
    match anStepBody fmt c0 c1 frames byteList byte bitCounter endOfFrame with
    | .ret out => out
    | .cont f2 bl2 b2 bc2 e2 => anLoop fmt rest2 f2 bl2 b2 bc2 e2

/-- Outcome of one iteration of the SONY scan loop. -/
inductive SonyStepRes where
  | cont (frames : List (List ℕ)) (byteList : List ℕ) (byte bitCounter : ℕ)
  | ret (out : DecodeOut)
  deriving DecidableEq, Repr

/-- End-of-iteration check of the SONY loop (lines 452-460): at the final
pair (`i == len(code) - 2`, i.e. `rest2 = []`) the accumulated bit count
must be exactly 12, 15 or 20; otherwise the loop just continues. -/
def sonyAfterBit (rest2 : List ℤ) (frames : List (List ℕ)) (byteList : List ℕ)
    (byte bitCounter : ℕ) : SonyStepRes :=
  match rest2 with
  | [] =>
    if bitCounter = 12 ∨ bitCounter = 15 ∨ bitCounter = 20 then
      .ret (.tuple .sony (frames ++ [byteList ++ [byte % 128, byte / 128]]))
    else .ret (.tuple .unknown [])
  | _ => .cont frames byteList byte bitCounter

/-- Body of one iteration of the SONY decode loop (lines 429-460) on the
pair `(c0, c1) = (code[i], code[i+1])`, where `rest2 = code[i+2:]`
(`rest2 ≠ []` ⟺ `i <= len(code) - 3`).  The flush at a frame boundary
appends `byte & 0x7F` and `byte >> 7` (lines 432-433). -/
def sonyStepBody (c0 c1 : ℤ) (rest2 : List ℤ) (frames : List (List ℕ))
    (byteList : List ℕ) (byte bitCounter : ℕ) : SonyStepRes :=
  if decide (5000 < c0) && clI c1 (T_SONY * 4) && !rest2.isEmpty then  -- boundary (431)
    .cont (frames ++ [byteList ++ [byte % 128, byte / 128]]) [] 0 0
  else if clI c0 T_SONY && clI c1 T_SONY then                   -- Data 0 (line 441)
    sonyAfterBit rest2 frames byteList byte (bitCounter + 1)
  else if clI c0 T_SONY && clI c1 (T_SONY * 2) then             -- Data 1 (line 444)
    sonyAfterBit rest2 frames byteList (byte + 2 ^ bitCounter) (bitCounter + 1)
  else .ret (.tuple .unknown [])                                -- unknown bit (line 450)

/-- The SONY decode loop (`for i in range(1, len(code), 2)`, lines 428-460)
on the remaining suffix `code[i:]`.  A single remaining element means
`i == len(code) - 1`: Python then evaluates `code[i+1]`, an `IndexError`,
whenever `code[i] > 5000` or `code[i]` is within tolerance of `t` (the
`and`s short-circuit otherwise, and the final `else` returns
`(Unknown, [])`). -/
def sonyLoop : List ℤ → List (List ℕ) → List ℕ → ℕ → ℕ → DecodeOut
  | [], _, _, _, _ => .pyNone
  | [c0], _, _, _, _ =>
    if decide (5000 < c0) then .err .indexError
    else if clI c0 T_SONY then .err .indexError
    else .tuple .unknown []
  | c0 :: c1 :: rest2, frames, byteList, byte, bitCounter =>
    match sonyStepBody c0 c1 rest2 frames byteList byte bitCounter with
    | .ret out => out
    | .cont f2 bl2 b2 bc2 => sonyLoop rest2 f2 bl2 b2 bc2

/-- `Infrared.decode` (lines 321-460).  The guard is the code's own
`len(code) < 10 or len(code)//2 == 0` (line 337) — `//`, not `%`, so the
second disjunct never fires once the length is at least 10. -/
def decode (code : List ℤ) : DecodeOut :=
  if code.length < 10 ∨ code.length / 2 = 0 then .tuple .unknown []
  else if clI (code.getD 0 0) (T_AEHA * 8) && clI (code.getD 1 0) (T_AEHA * 4) then
    anLoop .aeha (code.drop 2) [] [] 0 0 false
  else if clI (code.getD 0 0) (T_NEC * 16) && clI (code.getD 1 0) (T_NEC * 8) then
    anLoop .nec (code.drop 2) [] [] 0 0 false
  else if clI (code.getD 0 0) (T_SONY * 4) && clI (code.getD 1 0) T_SONY then
    sonyLoop (code.drop 1) [] [] 0 0
  else .tuple .unknown []

/-! ### record / _call_back (lines 118-221) -/

/-- `record` result codes (the `REC_*` constants, lines 17-20). -/
inductive RecResult where
  | success
  | noData
  | short
  | errPigpio
  deriving DecidableEq, Repr

/-- The mutable state shared between `record` and `_call_back`. -/
structure RecState where
  recording : Bool
  lastTick : ℕ
  code : List ℤ
  deriving DecidableEq, Repr

/-- `Infrared._call_back(gpio, level, tick)` (lines 183-221).  Level 0/1 is
an edge; any other level is the watchdog.  A gap above `_T_MAX_GAP` stops
the recording and discards that duration (the Python `return` on line 206
comes before the append and before `last_tick` is updated); otherwise the
gap is rounded adaptively and appended. -/
def callBack (s : RecState) (level tick : ℕ) : RecState :=
  if !s.recording then s
  else if level = 0 ∨ level = 1 then
    if s.lastTick = 0 then { s with lastTick := tick }
    else
      let length := tickDiff s.lastTick tick
      if T_MAX_GAP < length then { s with recording := false }
      else
        let rounded : ℤ :=
          if length < 1000 then pyround (length : ℤ) 10
          else if length < 2000 then pyround (length : ℤ) 50
          else pyround (length : ℤ) 200
        { s with code := s.code ++ [rounded], lastTick := tick }
  else { s with recording := false }

/-- Folding `_call_back` over a sequence of `(level, tick)` edge events. -/
def runCallbacks (s : RecState) (events : List (ℕ × ℕ)) : RecState :=
  events.foldl (fun st ev => callBack st ev.1 ev.2) s

/-- Result mapping at the end of `record` (lines 162-168): `Success` iff
more than 10 samples accumulated, else `Short`. -/
def recordFinish (code : List ℤ) : RecResult × List ℤ :=
  if 10 < code.length then (.success, code) else (.short, code)

/-- `record`'s overall-timeout return `(REC_NO_DATA, [])` (line 156). -/
def recordTimedOut : RecResult × List ℤ := (.noData, [])

/-! ### Reachability of SONY decode-loop states -/

/-- A state of the SONY decode loop at the start of an iteration: the
remaining suffix `code[i:]` plus the accumulators. -/
structure SonyState where
  rest : List ℤ
  frames : List (List ℕ)
  byteList : List ℕ
  byte : ℕ
  bitCounter : ℕ
  deriving DecidableEq, Repr

/-- Reachability along the SONY decode loop: `SonyReach s s2` holds when
the loop started in `s` passes through `s2`. -/
inductive SonyReach : SonyState → SonyState → Prop
  | refl (s : SonyState) : SonyReach s s
  | step {c0 c1 : ℤ} {rest2 : List ℤ} {fr f2 : List (List ℕ)}
      {bl bl2 : List ℕ} {b bc b2 bc2 : ℕ} {s3 : SonyState} :
      sonyStepBody c0 c1 rest2 fr bl b bc = .cont f2 bl2 b2 bc2 →
      SonyReach ⟨rest2, f2, bl2, b2, bc2⟩ s3 →
      SonyReach ⟨c0 :: c1 :: rest2, fr, bl, b, bc⟩ s3

/-! ### Bridging lemmas for the embedded float comparisons -/

/-- The integer tolerance check used by the decoder agrees with `_cl` at the
default tolerance: `clI` is `cl` with the comparison multiplied by 100. -/
theorem clI_eq_cl (l t : ℤ) : clI l t = cl (l : ℚ) (t : ℚ) tolDefault := by
  simp only [clI, cl, tolDefault, decide_eq_decide]
  constructor
  · rintro ⟨ha, hb⟩
    have ha2 : ((65 * t : ℤ) : ℚ) < ((100 * l : ℤ) : ℚ) := Int.cast_lt.2 ha
    have hb2 : ((100 * l : ℤ) : ℚ) < ((135 * t : ℤ) : ℚ) := Int.cast_lt.2 hb
    push_cast at ha2 hb2
    constructor <;> nlinarith
  · rintro ⟨ha, hb⟩
    have ha2 : (65 * (t : ℚ)) < 100 * (l : ℚ) := by nlinarith
    have hb2 : (100 * (l : ℚ)) < 135 * (t : ℚ) := by nlinarith
    exact ⟨by exact_mod_cast ha2, by exact_mod_cast hb2⟩

/-- The decoder's long-space threshold `_T_WAIT * 0.5` is exactly 5000. -/
theorem halfWait_eq : (T_WAIT : ℚ) * (1 / 2) = 5000 := by
  norm_num [T_WAIT]

/-! ### Claim C2 — decode on even-length codes (code bug) -/

/-- Claim C2 evaluation at the failing inputs: `decode` on an even-length
AEHA-led code of length ≥ 10 falls off its scan loop (Python returns `None`),
and on an even-length SONY-led code raises `IndexError` — neither is a
`(format, frames)` pair, because the parity guard `len(code)//2 == 0`
(a slip for `% 2`, per the comment on line 336) never fires for length ≥ 10. -/
theorem C2_even_length_failures :
    decode [3400, 1700, 425, 425, 425, 425, 425, 425, 425, 425] = .pyNone ∧
    decode [2400, 600, 600, 600, 600, 600, 600, 600, 600, 600] = .err .indexError := by
  decide

/-! ### Claim C3 — the mid-code stop-bit branch -/

/-- Claim C3 counterexample: at a recognized mid-code stop bit (Mark 425
within tolerance of `t`, Space 10000 > 5000) with `bit_counter = 1`, the
continuation state keeps `bit_counter = 1` — the bit counter is *not* reset
to zero, contradicting the claim.  The third conjunct shows the difference
is observable end to end: carrying `bit_counter = 1` across the boundary
makes this 23-element code decode to `(AEHA, [[], [0x00]])`, while a reset
bit counter would leave 7 trailing data bits unaligned and fail. -/
theorem C3_cex :
    anStepBody .aeha 425 10000 [] [] 0 1 false = .cont [[]] [] 0 1 true ∧
    anStepBody .aeha 425 10000 [] [] 0 1 false ≠ .cont [[]] [] 0 0 true ∧
    decode [3400, 1700, 425, 425, 425, 10000, 3400, 1700, 425, 425, 425, 425, 425,
      425, 425, 425, 425, 425, 425, 425, 425, 425, 425] = .tuple .aeha [[], [0]] := by
  decide

/-- Claim C3 (amended): when the AEHA/NEC loop recognizes a mid-code stop bit
(Mark within tolerance of `t`, following Space greater than `0.5 * 10000`,
not at the last index), it appends the accumulated byte list as a completed
frame, resets the byte list and the partial byte value to zero and sets
`end_of_frame` — but leaves the bit counter unchanged. -/
theorem C3_stop_branch (fmt : IRFormat) (c0 c1 : ℤ) (frames : List (List ℕ))
    (byteList : List ℕ) (byte bitCounter : ℕ)
    (h0 : clI c0 (tOf fmt) = true) (h1 : 5000 < c1) :
    anStepBody fmt c0 c1 frames byteList byte bitCounter false =
      .cont (frames ++ [byteList]) [] 0 bitCounter true := by
  simp [anStepBody, h0, h1]

theorem C3_witness :
    anStepBody .aeha 425 10000 [] [] 0 5 false = .cont [[]] [] 0 5 true :=
  C3_stop_branch .aeha 425 10000 [] [] 0 5 (by decide) (by decide)

/-! ### Claim C4 — rejection of short codes and unknown leaders -/

/-- Claim C4: a code shorter than 10 elements decodes to `(Unknown, [])`,
and a code of length ≥ 10 whose first two elements match none of the three
leader patterns `(8*425, 4*425)`, `(16*560, 8*560)`, `(4*600, 600)` under
the default tolerance decodes to `(Unknown, [])`. -/
theorem C4_reject :
    (∀ code : List ℤ, code.length < 10 → decode code = .tuple .unknown []) ∧
    (∀ code : List ℤ, 10 ≤ code.length →
      (clI (code.getD 0 0) (T_AEHA * 8) && clI (code.getD 1 0) (T_AEHA * 4)) = false →
      (clI (code.getD 0 0) (T_NEC * 16) && clI (code.getD 1 0) (T_NEC * 8)) = false →
      (clI (code.getD 0 0) (T_SONY * 4) && clI (code.getD 1 0) T_SONY) = false →
      decode code = .tuple .unknown []) := by
  constructor
  · intro code h
    simp [decode, h]
  · intro code h h1 h2 h3
    have hg : ¬(code.length < 10 ∨ code.length / 2 = 0) := by omega
    have hb1 : ¬((clI (code.getD 0 0) (T_AEHA * 8) && clI (code.getD 1 0) (T_AEHA * 4))
        = true) := by rw [h1]; simp
    have hb2 : ¬((clI (code.getD 0 0) (T_NEC * 16) && clI (code.getD 1 0) (T_NEC * 8))
        = true) := by rw [h2]; simp
    have hb3 : ¬((clI (code.getD 0 0) (T_SONY * 4) && clI (code.getD 1 0) T_SONY)
        = true) := by rw [h3]; simp
    simp only [decode]
    rw [if_neg hg, if_neg hb1, if_neg hb2, if_neg hb3]

theorem C4_witness :
    decode [1, 1, 1, 1, 1, 1, 1, 1, 1, 1] = .tuple .unknown [] :=
  C4_reject.2 [1, 1, 1, 1, 1, 1, 1, 1, 1, 1] (by decide) (by decide) (by decide) (by decide)

/-! ### Claim C5 — within_tolerance -/

/-- Claim C5 counterexample: the claim asserts
`within_tolerance(target, target, tol)` is true for *every* target, but at
`target = 0` (default tolerance) `_cl` compares `0 > 0` and returns false. -/
theorem C5_cex : cl 0 0 tolDefault = false := by
  rw [cl]
  simp only [decide_eq_false_iff_not]
  norm_num

/-- Claim C5 (amended): `_cl(length, target, tol)` is true iff
`target*(1-tol) < length < target*(1+tol)` with strict inequalities; the
lower boundary value is always rejected; and `_cl(target, target, tol)` is
true for every *positive* target and positive tolerance (at `target = 0` or
`tol = 0` the strict comparison fails, see `C5_cex`). -/
theorem C5_tolerance :
    (∀ length target tol : ℚ,
      cl length target tol = true ↔
        (target * (1 - tol) < length ∧ length < target * (1 + tol))) ∧
    (∀ target tol : ℚ, cl (target * (1 - tol)) target tol = false) ∧
    (∀ target tol : ℚ, 0 < target → 0 < tol → cl target target tol = true) := by
  refine ⟨fun l t tol => by simp [cl], fun t tol => by simp [cl], ?_⟩
  intro t tol ht htol
  simp only [cl, decide_eq_true_eq]
  constructor <;> nlinarith

theorem C5_witness : cl 425 425 (35 / 100) = true :=
  C5_tolerance.2.2 425 (35 / 100) (by norm_num) (by norm_num)

/-! ### Claim C7 — encoding empty frames -/

/-- Claim C7 counterexample: an empty AEHA frame encodes to leader plus stop
mark, not to an empty code. -/
theorem C7_cex :
    encode .aeha [[]] = .ok [3400, 1700, 425] ∧ ([3400, 1700, 425] : List ℤ) ≠ [] := by
  decide

/-- Claim C7 (amended): `encode` does not signal empty frames with an empty
code.  A successfully encoded code is empty iff the frames *list* is empty;
for AEHA/NEC an empty frame contributes leader + stop mark; for SONY a frame
with fewer than two entries makes `frame[0]`/`frame[1]` raise `IndexError`. -/
theorem C7_empty_frame :
    (∀ fmt frames c, encode fmt frames = .ok c → (c = [] ↔ frames = [])) ∧
    (∀ frames frame, frame.length < 2 →
      encode .sony (frame :: frames) = .error .indexError) ∧
    encode .aeha [[]] = .ok [3400, 1700, 425] := by
  refine ⟨?_, ?_, by decide⟩
  · intro fmt frames c h
    cases fmt with
    | unknown => simp [encode] at h
    | aeha =>
      simp only [encode, Except.ok.injEq] at h
      subst h
      cases frames with
      | nil => simp [encodeANLoop]
      | cons f fs => simp [encodeANLoop, leaderAN]
    | nec =>
      simp only [encode, Except.ok.injEq] at h
      subst h
      cases frames with
      | nil => simp [encodeANLoop]
      | cons f fs => simp [encodeANLoop, leaderAN]
    | sony =>
      cases frames with
      | nil =>
        simp only [encode, encodeSonyLoop, Except.ok.injEq] at h
        simp [← h]
      | cons f fs =>
        cases f with
        | nil => simp [encode, encodeSonyLoop] at h
        | cons a rest =>
          cases rest with
          | nil => simp [encode, encodeSonyLoop] at h
          | cons b rest2 =>
            cases hrec : encodeSonyLoop fs false
                (4 + tCountBitsSony (a + b * 128) (sonyBits b)) with
            | ok tail =>
              simp [encode, encodeSonyLoop, hrec] at h
              simp [← h]
            | error e =>
              simp [encode, encodeSonyLoop, hrec] at h
  · intro frames frame hlen
    cases frame with
    | nil => rfl
    | cons a rest =>
      cases rest with
      | nil => rfl
      | cons b rest2 => simp at hlen; omega

theorem C7_witness : encode .sony [[]] = .error .indexError :=
  C7_empty_frame.2.1 [] [] (by decide)

/-! ### Claim C8 — round_to -/

/-- Claim C8: `_round(n, m) = (n + m/2)/m*m` under floor division, and the
result is the multiple of `m` nearest to `n`, ties rounding up: its distance
to `n` never exceeds that of any multiple `m*k`, and any equally distant
multiple lies at or below it.  Concretely `_round(1005,10) = 1010` and
`_round(1004,10) = 1000`. -/
theorem C8_round_to :
    (∀ n m : ℤ, 0 ≤ n → 0 < m →
      pyround n m = (n + m / 2) / m * m ∧
      m ∣ pyround n m ∧
      ∀ k : ℤ, (n - pyround n m).natAbs ≤ (n - m * k).natAbs ∧
        ((n - pyround n m).natAbs = (n - m * k).natAbs → m * k ≤ pyround n m)) ∧
    pyround 1005 10 = 1010 ∧ pyround 1004 10 = 1000 := by
  refine ⟨fun n m _hn hm => ⟨rfl, dvd_mul_left m _, fun k => ?_⟩, by decide, by decide⟩
  have hR : pyround n m = m * ((n + m / 2) / m) := by
    rw [pyround, mul_comm]
  have hdm := Int.ediv_add_emod (n + m / 2) m
  have hr0 : 0 ≤ (n + m / 2) % m := Int.emod_nonneg _ (by omega)
  have hrm : (n + m / 2) % m < m := Int.emod_lt_of_pos _ hm
  have h2 := Int.ediv_add_emod m 2
  have h20 : 0 ≤ m % 2 := Int.emod_nonneg _ (by norm_num)
  have h22 : m % 2 < 2 := Int.emod_lt_of_pos _ (by norm_num)
  rcases lt_trichotomy ((n + m / 2) / m) k with hqk | hqk | hqk
  · have hmul : m * ((n + m / 2) / m) + m ≤ m * k := by
      have : m * ((n + m / 2) / m + 1) ≤ m * k :=
        mul_le_mul_of_nonneg_left (by omega) hm.le
      linarith [this, mul_add m ((n + m / 2) / m) 1, mul_one m]
    rw [hR]
    omega
  · rw [hR, hqk]
    omega
  · have hmul : m * k + m ≤ m * ((n + m / 2) / m) := by
      have : m * (k + 1) ≤ m * ((n + m / 2) / m) :=
        mul_le_mul_of_nonneg_left (by omega) hm.le
      linarith [this, mul_add m k 1, mul_one m]
    rw [hR]
    omega

theorem C8_witness : pyround 1005 10 = (1005 + 10 / 2) / 10 * 10 ∧ 10 ∣ pyround 1005 10 :=
  ⟨(C8_round_to.1 1005 10 (by norm_num) (by norm_num)).1,
   (C8_round_to.1 1005 10 (by norm_num) (by norm_num)).2.1⟩

/-! ### Claim C9 — the capture state machine -/

/-- Claim C9: an edge whose gap from the previous edge exceeds `_T_MAX_GAP`
stops the recording with that duration discarded (state unchanged except the
flag); once the recording flag is down, no later event changes anything;
the final result is `Success` iff more than 10 samples accumulated and
`Short` otherwise; an overall timeout reports `NoData` with an empty code. -/
theorem C9_capture :
    (∀ (s : RecState) (level tick : ℕ), s.recording = true → (level = 0 ∨ level = 1) →
      s.lastTick ≠ 0 → T_MAX_GAP < tickDiff s.lastTick tick →
      callBack s level tick = { s with recording := false }) ∧
    (∀ (s : RecState) (events : List (ℕ × ℕ)), s.recording = false →
      runCallbacks s events = s) ∧
    (∀ code : List ℤ, (recordFinish code).1 = .success ↔ 10 < code.length) ∧
    (∀ code : List ℤ, code.length ≤ 10 → recordFinish code = (.short, code)) ∧
    recordTimedOut = (.noData, []) := by
  have hnorec : ∀ (s : RecState) (level tick : ℕ), s.recording = false →
      callBack s level tick = s := by
    intro s level tick hrec
    simp [callBack, hrec]
  refine ⟨?_, ?_, ?_, ?_, rfl⟩
  · intro s level tick hrec hlvl hlast hgap
    simp [callBack, hrec, hlvl, hlast, hgap]
  · intro s events hrec
    induction events generalizing s with
    | nil => rfl
    | cons e es ih =>
      rw [runCallbacks, List.foldl_cons, hnorec s e.1 e.2 hrec]
      exact ih s hrec
  · intro code
    rw [recordFinish]
    split_ifs with h <;> simp [h]
  · intro code h
    rw [recordFinish, if_neg (by omega)]

theorem C9_witness :
    callBack ⟨true, 5, []⟩ 0 70006 = ⟨false, 5, []⟩ :=
  C9_capture.1 ⟨true, 5, []⟩ 0 70006 rfl (Or.inl rfl) (by decide) (by decide)

/-! ### Claim C6 — SONY decode succeeds only with final bit count 12/15/20 -/

theorem sonyAfterBit_ret_sony {rest2 : List ℤ} {fr fs : List (List ℕ)} {bl : List ℕ}
    {b bc : ℕ} (h : sonyAfterBit rest2 fr bl b bc = .ret (.tuple .sony fs)) :
    bc = 12 ∨ bc = 15 ∨ bc = 20 := by
  cases rest2 with
  | nil =>
    simp only [sonyAfterBit] at h
    split_ifs at h with hc
    · exact hc
    · simp at h
  | cons x xs => simp [sonyAfterBit] at h

/-- The only way an iteration of the SONY loop can return a SONY tuple is the
final check at the last pair, and it demands bit count 12, 15 or 20 (the
count after the just-processed bit is `bc + 1`). -/
theorem sonyStepBody_ret_sony {c0 c1 : ℤ} {rest2 : List ℤ} {fr fs : List (List ℕ)}
    {bl : List ℕ} {b bc : ℕ}
    (h : sonyStepBody c0 c1 rest2 fr bl b bc = .ret (.tuple .sony fs)) :
    bc + 1 = 12 ∨ bc + 1 = 15 ∨ bc + 1 = 20 := by
  rw [sonyStepBody] at h
  split_ifs at h <;>
    first
      | exact sonyAfterBit_ret_sony h
      | simp at h

/-- Any SONY-tuple success of the SONY loop factors through a reachable state
whose step returns it, with final bit count 12, 15 or 20. -/
theorem sonyLoop_sony_success :
    ∀ (n : ℕ) (rest : List ℤ), rest.length ≤ n →
      ∀ (fr : List (List ℕ)) (bl : List ℕ) (b bc : ℕ) (fs : List (List ℕ)),
        sonyLoop rest fr bl b bc = .tuple .sony fs →
        ∃ (c0 c1 : ℤ) (rest2 : List ℤ) (fr2 : List (List ℕ)) (bl2 : List ℕ) (b2 bc2 : ℕ),
          SonyReach ⟨rest, fr, bl, b, bc⟩ ⟨c0 :: c1 :: rest2, fr2, bl2, b2, bc2⟩ ∧
          sonyStepBody c0 c1 rest2 fr2 bl2 b2 bc2 = .ret (.tuple .sony fs) ∧
          (bc2 + 1 = 12 ∨ bc2 + 1 = 15 ∨ bc2 + 1 = 20) := by
  intro n
  induction n with
  | zero =>
    intro rest hlen fr bl b bc fs h
    have : rest = [] := List.length_eq_zero.1 (Nat.le_zero.1 hlen)
    subst this
    simp [sonyLoop] at h
  | succ n ih =>
    intro rest hlen fr bl b bc fs h
    match rest with
    | [] => simp [sonyLoop] at h
    | [c0] =>
      rw [sonyLoop] at h
      split_ifs at h
      all_goals simp at h
    | c0 :: c1 :: rest2 =>
      cases hstep : sonyStepBody c0 c1 rest2 fr bl b bc with
      | ret out =>
        simp only [sonyLoop, hstep] at h
        subst h
        exact ⟨c0, c1, rest2, fr, bl, b, bc, .refl _, hstep, sonyStepBody_ret_sony hstep⟩
      | cont f2 bl2 b2 bc2 =>
        simp only [sonyLoop, hstep] at h
        have hlen2 : rest2.length ≤ n := by
          simp only [List.length_cons] at hlen
          omega
        obtain ⟨d0, d1, r2, g2, cl2, x2, y2, hreach, hret, hbc⟩ :=
          ih rest2 hlen2 f2 bl2 b2 bc2 fs h
        exact ⟨d0, d1, r2, g2, cl2, x2, y2, .step hstep hreach, hret, hbc⟩

/-- Every `.ret` an AEHA/NEC loop iteration produces is `(Unknown, [])`. -/
theorem anStepBody_ret {fmt : IRFormat} {c0 c1 : ℤ} {fr : List (List ℕ)} {bl : List ℕ}
    {b bc : ℕ} {eof : Bool} {out : DecodeOut}
    (h : anStepBody fmt c0 c1 fr bl b bc eof = .ret out) : out = .tuple .unknown [] := by
  cases fmt <;>
    (simp only [anStepBody] at h; split_ifs at h <;> simp_all)

/-- The AEHA/NEC loop only ever returns tuples tagged with its own format or
with `Unknown`. -/
theorem anLoop_tuple_fmt :
    ∀ (n : ℕ) (rest : List ℤ), rest.length ≤ n →
      ∀ (fmt : IRFormat) (fr : List (List ℕ)) (bl : List ℕ) (b bc : ℕ) (eof : Bool)
        (f : IRFormat) (fs : List (List ℕ)),
        anLoop fmt rest fr bl b bc eof = .tuple f fs → f = fmt ∨ f = .unknown := by
  intro n
  induction n with
  | zero =>
    intro rest hlen fmt fr bl b bc eof f fs h
    have : rest = [] := List.length_eq_zero.1 (Nat.le_zero.1 hlen)
    subst this
    simp [anLoop] at h
  | succ n ih =>
    intro rest hlen fmt fr bl b bc eof f fs h
    match rest with
    | [] => simp [anLoop] at h
    | [c0] =>
      rw [anLoop] at h
      split_ifs at h <;> simp_all
    | c0 :: c1 :: rest2 =>
      cases hstep : anStepBody fmt c0 c1 fr bl b bc eof with
      | ret out =>
        simp only [anLoop, hstep] at h
        have hout := anStepBody_ret hstep
        rw [hout] at h
        injection h with h1 h2
        exact Or.inr h1.symm
      | cont f2 bl2 b2 bc2 e2 =>
        simp only [anLoop, hstep] at h
        have hlen2 : rest2.length ≤ n := by
          simp only [List.length_cons] at hlen
          omega
        exact ih rest2 hlen2 fmt f2 bl2 b2 bc2 e2 f fs h

/-- Claim C6: SONY decode succeeds only when the bit counter accumulated at
the final processed pair is exactly 12, 15 or 20 — every SONY success of
`decode` factors through a reachable loop state whose final step returns it
with `bitCounter + 1 ∈ {12, 15, 20}`; and at the final pair a recognized
data bit with any other accumulated count returns `(Unknown, [])`. -/
theorem C6_sony_final_bits :
    (∀ (code : List ℤ) (fs : List (List ℕ)),
      decode code = .tuple .sony fs →
      ∃ (c0 c1 : ℤ) (rest2 : List ℤ) (fr : List (List ℕ)) (bl : List ℕ) (b bc : ℕ),
        SonyReach ⟨code.drop 1, [], [], 0, 0⟩ ⟨c0 :: c1 :: rest2, fr, bl, b, bc⟩ ∧
        sonyStepBody c0 c1 rest2 fr bl b bc = .ret (.tuple .sony fs) ∧
        (bc + 1 = 12 ∨ bc + 1 = 15 ∨ bc + 1 = 20)) ∧
    (∀ (c0 c1 : ℤ) (fr : List (List ℕ)) (bl : List ℕ) (b bc : ℕ),
      clI c0 T_SONY = true → (clI c1 T_SONY = true ∨ clI c1 (T_SONY * 2) = true) →
      ¬(bc + 1 = 12 ∨ bc + 1 = 15 ∨ bc + 1 = 20) →
      sonyStepBody c0 c1 [] fr bl b bc = .ret (.tuple .unknown [])) := by
  constructor
  · intro code fs h
    rw [decode] at h
    split_ifs at h with hg ha hn hs
    · simp at h
    · exact absurd (anLoop_tuple_fmt (code.drop 2).length _ le_rfl _ _ _ _ _ _ _ _ h)
        (by simp)
    · exact absurd (anLoop_tuple_fmt (code.drop 2).length _ le_rfl _ _ _ _ _ _ _ _ h)
        (by simp)
    · exact sonyLoop_sony_success (code.drop 1).length _ le_rfl _ _ _ _ _ h
    · simp at h
  · intro c0 c1 fr bl b bc h0 h1 hbc
    rw [sonyStepBody]
    rw [if_neg (by simp)]
    rcases h1 with h1 | h1
    · rw [if_pos (by simp [h0, h1])]
      simp only [sonyAfterBit]
      rw [if_neg hbc]
    · by_cases h2 : clI c1 T_SONY = true
      · rw [if_pos (by simp [h0, h2])]
        simp only [sonyAfterBit]
        rw [if_neg hbc]
      · rw [if_neg (by simp [h2]), if_pos (by simp [h0, h1])]
        simp only [sonyAfterBit]
        rw [if_neg hbc]

theorem C6_witness :
    ∃ (c0 c1 : ℤ) (rest2 : List ℤ) (fr : List (List ℕ)) (bl : List ℕ) (b bc : ℕ),
      SonyReach ⟨(([2400] ++ List.replicate 24 600 : List ℤ)).drop 1, [], [], 0, 0⟩
        ⟨c0 :: c1 :: rest2, fr, bl, b, bc⟩ ∧
      sonyStepBody c0 c1 rest2 fr bl b bc = .ret (.tuple .sony [[0, 0]]) ∧
      (bc + 1 = 12 ∨ bc + 1 = 15 ∨ bc + 1 = 20) :=
  C6_sony_final_bits.1 ([2400] ++ List.replicate 24 600) [[0, 0]] (by decide)

/-! ### Claim C10 — intermediate SONY frames skip the bit-count check -/

/-- Claim C10: an intermediate SONY frame boundary flushes the accumulated
frame without any bit-count check.  On the concrete 31-element code below,
decode succeeds with three frames although the second boundary fires in a
reachable state with `bitCounter = 0` (a 0-bit frame `[0, 0]`, the boundary
coming immediately after the previous one), and 0 is none of 12/15/20. -/
theorem C10_intermediate_frame :
    decode ([2400, 600, 600, 6000, 2400, 6000, 2400] ++ List.replicate 24 600)
      = .tuple .sony [[0, 0], [0, 0], [0, 0]] ∧
    SonyReach
      ⟨([2400, 600, 600, 6000, 2400, 6000, 2400] ++ List.replicate 24 600 : List ℤ).drop 1,
        [], [], 0, 0⟩
      ⟨6000 :: 2400 :: List.replicate 24 600, [[0, 0]], [], 0, 0⟩ ∧
    sonyStepBody 6000 2400 (List.replicate 24 600) [[0, 0]] [] 0 0
      = .cont [[0, 0], [0, 0]] [] 0 0 ∧
    ¬((0 : ℕ) = 12 ∨ (0 : ℕ) = 15 ∨ (0 : ℕ) = 20) := by
  refine ⟨by decide, ?_, by decide, by decide⟩
  have h1 : sonyStepBody 600 600 (6000 :: 2400 :: 6000 :: 2400 :: List.replicate 24 600)
      [] [] 0 0 = .cont [] [] 0 1 := by decide
  have h2 : sonyStepBody 6000 2400 (6000 :: 2400 :: List.replicate 24 600)
      [] [] 0 1 = .cont [[0, 0]] [] 0 0 := by decide
  exact .step h1 (.step h2 (.refl _))

/-! ### Claim C1 — round-trip.  Concrete tolerance-check values. -/

@[simp] theorem tOf_aeha : tOf .aeha = 425 := rfl

@[simp] theorem tOf_nec : tOf .nec = 560 := rfl

@[simp] theorem tOf_sony : tOf .sony = 600 := rfl

@[simp] theorem clI_425_425 : clI 425 425 = true := by decide

@[simp] theorem clI_1275_425 : clI 1275 425 = false := by decide

@[simp] theorem clI_425_1275 : clI 425 1275 = false := by decide

@[simp] theorem clI_1275_1275 : clI 1275 1275 = true := by decide

@[simp] theorem clI_3400_3400 : clI 3400 3400 = true := by decide

@[simp] theorem clI_1700_1700 : clI 1700 1700 = true := by decide

@[simp] theorem clI_560_560 : clI 560 560 = true := by decide

@[simp] theorem clI_1680_560 : clI 1680 560 = false := by decide

@[simp] theorem clI_560_1680 : clI 560 1680 = false := by decide

@[simp] theorem clI_1680_1680 : clI 1680 1680 = true := by decide

@[simp] theorem clI_8960_8960 : clI 8960 8960 = true := by decide

@[simp] theorem clI_4480_4480 : clI 4480 4480 = true := by decide

@[simp] theorem clI_8960_3400 : clI 8960 3400 = false := by decide

@[simp] theorem clI_2400_3400 : clI 2400 3400 = true := by decide

@[simp] theorem clI_600_1700 : clI 600 1700 = false := by decide

@[simp] theorem clI_2400_8960 : clI 2400 8960 = false := by decide

@[simp] theorem clI_2400_2400 : clI 2400 2400 = true := by decide

@[simp] theorem clI_600_600 : clI 600 600 = true := by decide

@[simp] theorem clI_1200_600 : clI 1200 600 = false := by decide

@[simp] theorem clI_600_1200 : clI 600 1200 = false := by decide

@[simp] theorem clI_1200_1200 : clI 1200 1200 = true := by decide

/-- Accumulator update of the AEHA/NEC decode loop across the `n` low bits
of `d` (the effect of `n` consecutive Data 0 / Data 1 iterations). -/
def anConsume (d : ℕ) : ℕ → List ℕ → ℕ → ℕ → List ℕ × ℕ × ℕ
  | 0, bl, b, bc => (bl, b, bc)
  | n + 1, bl, b, bc =>
    if (bc + 1) % 8 = 0 then anConsume (d / 2) n (bl ++ [b + d % 2 * 2 ^ bc]) 0 0
    else anConsume (d / 2) n bl (b + d % 2 * 2 ^ bc) ((bc + 1) % 8)

/-- Scanning the AEHA/NEC encoding of the `n` low bits of `d` mid-frame
performs exactly the `anConsume` accumulator update. -/
theorem anLoop_bits (fmt : IRFormat) (hf : fmt = .aeha ∨ fmt = .nec) :
    ∀ (n d : ℕ) (rest : List ℤ) (fr : List (List ℕ)) (bl : List ℕ) (b bc : ℕ),
      anLoop fmt (encodeBitsAN (tOf fmt) d n ++ rest) fr bl b bc false =
        anLoop fmt rest fr (anConsume d n bl b bc).1 (anConsume d n bl b bc).2.1
          (anConsume d n bl b bc).2.2 false := by
  intro n
  induction n with
  | zero => intro d rest fr bl b bc; simp [encodeBitsAN, anConsume]
  | succ n ih =>
    intro d rest fr bl b bc
    have hsplit : d % 2 = 0 ∨ d % 2 = 1 := by omega
    rcases hf with rfl | rfl <;> rcases hsplit with hd | hd <;>
      by_cases hbc : (bc + 1) % 8 = 0 <;>
        (simp only [encodeBitsAN, anConsume, hd, hbc, if_true, if_false, ite_true,
          ite_false, List.cons_append, anLoop, anStepBody, tOf_aeha, tOf_nec]
         norm_num [hd, hbc]
         exact ih _ _ _ _ _ _)

/-- Eight bit iterations starting byte-aligned flush exactly one byte. -/
theorem anConsume_byte (d : ℕ) (hd : d < 256) (bl : List ℕ) :
    anConsume d 8 bl 0 0 = (bl ++ [d], 0, 0) := by
  simp only [anConsume]
  norm_num
  simp only [Nat.div_div_eq_div_mul]
  norm_num
  omega

/-- Scanning one frame's data (whole bytes below 256) mid-frame appends
exactly those bytes to the byte list. -/
theorem anLoop_frame (fmt : IRFormat) (hf : fmt = .aeha ∨ fmt = .nec) :
    ∀ (frame : List ℕ), (∀ x ∈ frame, x < 256) →
      ∀ (rest : List ℤ) (fr : List (List ℕ)) (bl : List ℕ),
        anLoop fmt (frameData (tOf fmt) frame ++ rest) fr bl 0 0 false =
          anLoop fmt rest fr (bl ++ frame) 0 0 false := by
  intro frame
  induction frame with
  | nil => intro _ rest fr bl; simp [frameData]
  | cons byte fs ih =>
    intro hlt rest fr bl
    have h1 : frameData (tOf fmt) (byte :: fs) ++ rest
        = encodeBitsAN (tOf fmt) byte 8 ++ (frameData (tOf fmt) fs ++ rest) := by
      simp [frameData]
    rw [h1, anLoop_bits fmt hf 8 byte, anConsume_byte byte (hlt byte (by simp)) bl]
    have h2 := ih (fun x hx => hlt x (by simp [hx])) rest fr (bl ++ [byte])
    simpa using h2

theorem encodeBitsAN_length (t : ℤ) : ∀ (n d : ℕ), (encodeBitsAN t d n).length = 2 * n := by
  intro n
  induction n with
  | zero => intro d; simp [encodeBitsAN]
  | succ n ih => intro d; simp [encodeBitsAN, ih (d / 2)]; omega

theorem frameData_length (t : ℤ) (frame : List ℕ) :
    (frameData t frame).length = 16 * frame.length := by
  induction frame with
  | nil => simp [frameData]
  | cons b fs ih =>
    simp only [frameData, List.flatMap_cons, List.length_append, List.length_cons] at ih ⊢
    rw [encodeBitsAN_length, ih]
    omega

/-- Every inter-frame wait space the encoder will emit for this frame list
exceeds the decoder's 5000 µs long-space threshold. -/
def waitsOK (fmt : IRFormat) : List (List ℕ) → Prop
  | [] => True
  | [_] => True
  | f :: g :: fs => 5000 < waitVal fmt (frameTCountAN fmt f) ∧ waitsOK fmt (g :: fs)

theorem waitsOK_aeha (fs : List (List ℕ)) : waitsOK .aeha fs := by
  induction fs with
  | nil => trivial
  | cons f gs ih =>
    cases gs with
    | nil => trivial
    | cons g gs2 => exact ⟨by norm_num [waitVal, T_WAIT], ih⟩

/-- The claim's NEC side condition: frames whose unit count stays at or below
183 keep the `108000 - 560*t_count` wait above 5000 µs after rounding. -/
def necOK : List (List ℕ) → Prop
  | [] => True
  | [_] => True
  | f :: g :: fs => frameTCountAN .nec f ≤ 183 ∧ necOK (g :: fs)

theorem nec_wait_big {tc : ℕ} (h : tc ≤ 183) : 5000 < waitVal .nec tc := by
  simp only [waitVal, pyround, T_NEC]
  have h2 : (tc : ℤ) ≤ 183 := by exact_mod_cast h
  omega

theorem waitsOK_nec (fs : List (List ℕ)) (h : necOK fs) : waitsOK .nec fs := by
  induction fs with
  | nil => trivial
  | cons f gs ih =>
    cases gs with
    | nil => trivial
    | cons g gs2 =>
      obtain ⟨h1, h2⟩ := h
      exact ⟨nec_wait_big h1, ih h2⟩

/-- Scanning a frame, its stop mark and the rest of the encoded stream
yields all remaining frames. -/
theorem anLoop_chain (fmt : IRFormat) (hf : fmt = .aeha ∨ fmt = .nec) :
    ∀ (fs : List (List ℕ)) (f : List ℕ) (fr : List (List ℕ)),
      (∀ x ∈ f, x < 256) → (∀ g ∈ fs, ∀ x ∈ g, x < 256) →
      waitsOK fmt (f :: fs) →
      anLoop fmt (frameData (tOf fmt) f ++ ([tOf fmt]
          ++ encodeANLoop fmt fs false (frameTCountAN fmt f))) fr [] 0 0 false
        = .tuple fmt (fr ++ f :: fs) := by
  intro fs
  induction fs with
  | nil =>
    intro f fr hfb _ _
    rw [anLoop_frame fmt hf f hfb]
    rcases hf with rfl | rfl <;> simp [encodeANLoop, anLoop]
  | cons g gs ih =>
    intro f fr hfb hgs hw
    obtain ⟨hwait, hw2⟩ := hw
    rw [anLoop_frame fmt hf f hfb]
    have hdec : decide (5000 < waitVal fmt (frameTCountAN fmt f)) = true :=
      decide_eq_true hwait
    have hgb : ∀ x ∈ g, x < 256 := hgs g (by simp)
    have hgs2 : ∀ g2 ∈ gs, ∀ x ∈ g2, x < 256 := fun g2 h2 => hgs g2 (by simp [h2])
    have hih := ih g (fr ++ [f]) hgb hgs2 hw2
    rcases hf with rfl | rfl <;>
      (simp only [encodeANLoop, leaderAN, if_false, Bool.false_eq_true, ite_false,
        List.nil_append, List.singleton_append, List.cons_append, List.append_assoc,
        List.append_nil]
       simp only [anLoop, anStepBody, tOf_aeha, tOf_nec, clI_425_425, clI_560_560,
         hdec, Bool.and_true, Bool.and_false, Bool.true_and, if_true, ite_true]
       norm_num [T_AEHA, T_NEC]
       rw [show fr ++ f :: g :: gs = (fr ++ [f]) ++ g :: gs by simp]
       rw [← hih]
       simp [List.append_assoc])

/-- Decoding an AEHA/NEC encoding of non-empty byte frames (with every
inter-frame wait above 5000 µs) recovers format and frames. -/
theorem decode_encodeAN (fmt : IRFormat) (hf : fmt = .aeha ∨ fmt = .nec)
    (fs : List (List ℕ)) (hne : fs ≠ [])
    (hb : ∀ f ∈ fs, f ≠ [] ∧ ∀ x ∈ f, x < 256) (hw : waitsOK fmt fs) :
    decode (encodeANLoop fmt fs true 0) = .tuple fmt fs := by
  obtain ⟨f, fs2, rfl⟩ : ∃ f fs2, fs = f :: fs2 := by
    cases fs with
    | nil => exact absurd rfl hne
    | cons a b => exact ⟨a, b, rfl⟩
  have hfne : f ≠ [] := (hb f (by simp)).1
  have hfb : ∀ x ∈ f, x < 256 := (hb f (by simp)).2
  have hgs : ∀ g ∈ fs2, ∀ x ∈ g, x < 256 := fun g hg => (hb g (by simp [hg])).2
  have hflen : 1 ≤ f.length := by
    cases f with
    | nil => exact absurd rfl hfne
    | cons => simp
  have hchain := anLoop_chain fmt hf fs2 f [] hfb hgs hw
  rcases hf with rfl | rfl
  · have hcode : encodeANLoop .aeha (f :: fs2) true 0
        = 3400 :: 1700 :: (frameData (tOf .aeha) f ++ ([tOf .aeha]
            ++ encodeANLoop .aeha fs2 false (frameTCountAN .aeha f))) := by
      norm_num [encodeANLoop, leaderAN, T_AEHA, List.append_assoc]
    have hlen : (encodeANLoop .aeha (f :: fs2) true 0).length =
        2 + ((frameData (tOf .aeha) f).length + (1
          + (encodeANLoop .aeha fs2 false (frameTCountAN .aeha f)).length)) := by
      rw [hcode]
      simp
      omega
    rw [hcode, decode]
    rw [if_neg (by
      rw [← hcode, hlen, frameData_length]
      omega)]
    norm_num [List.getD]
    rw [if_pos (by norm_num [T_AEHA])]
    exact hchain
  · have hcode : encodeANLoop .nec (f :: fs2) true 0
        = 8960 :: 4480 :: (frameData (tOf .nec) f ++ ([tOf .nec]
            ++ encodeANLoop .nec fs2 false (frameTCountAN .nec f))) := by
      norm_num [encodeANLoop, leaderAN, T_NEC, List.append_assoc]
    have hlen : (encodeANLoop .nec (f :: fs2) true 0).length =
        2 + ((frameData (tOf .nec) f).length + (1
          + (encodeANLoop .nec fs2 false (frameTCountAN .nec f)).length)) := by
      rw [hcode]
      simp
      omega
    rw [hcode, decode]
    rw [if_neg (by
      rw [← hcode, hlen, frameData_length]
      omega)]
    norm_num [List.getD]
    rw [if_neg (by norm_num [T_AEHA]), if_pos (by norm_num [T_NEC])]
    exact hchain

theorem sonyAfterBit_ne_nil {rest2 : List ℤ} {fr : List (List ℕ)} {bl : List ℕ}
    {b bc : ℕ} (h : rest2 ≠ []) : sonyAfterBit rest2 fr bl b bc = .cont fr bl b bc := by
  cases rest2 with
  | nil => exact absurd rfl h
  | cons => rfl

theorem sonyLoop_cons_cons (c0 c1 : ℤ) (rest2 : List ℤ) (fr : List (List ℕ))
    (bl : List ℕ) (b bc : ℕ) :
    sonyLoop (c0 :: c1 :: rest2) fr bl b bc =
      match sonyStepBody c0 c1 rest2 fr bl b bc with
      | .ret out => out
      | .cont f2 bl2 b2 bc2 => sonyLoop rest2 f2 bl2 b2 bc2 := rfl

theorem mod_two_mul (d k : ℕ) (hk : 0 < k) : d % (2 * k) = d % 2 + 2 * (d / 2 % k) := by
  have h1 : d % 2 + 2 * (d / 2 % k) < 2 * k := by
    have h2 := Nat.mod_lt (d / 2) hk
    omega
  have e2 : k * (d / 2 / k) + d / 2 % k = d / 2 := Nat.div_add_mod (d / 2) k
  have h2 : d = 2 * k * (d / 2 / k) + (d % 2 + 2 * (d / 2 % k)) := by
    calc d = 2 * (d / 2) + d % 2 := by omega
    _ = 2 * (k * (d / 2 / k) + d / 2 % k) + d % 2 := by rw [e2]
    _ = 2 * k * (d / 2 / k) + (d % 2 + 2 * (d / 2 % k)) := by ring
  conv_lhs => rw [h2]
  rw [Nat.mul_add_mod]
  exact Nat.mod_eq_of_lt h1

/-- Scanning the SONY encoding of the `n` low bits of `d` (not at the end of
the code) accumulates them into `byte` and advances the bit counter by `n`. -/
theorem sonyLoop_bits :
    ∀ (n d : ℕ) (rest : List ℤ), rest ≠ [] →
      ∀ (fr : List (List ℕ)) (bl : List ℕ) (b bc : ℕ),
        sonyLoop (encodeBitsSony 600 d n ++ rest) fr bl b bc =
          sonyLoop rest fr bl (b + d % 2 ^ n * 2 ^ bc) (bc + n) := by
  intro n
  induction n with
  | zero =>
    intro d rest _ fr bl b bc
    simp [encodeBitsSony, Nat.mod_one]
  | succ n ih =>
    intro d rest hne fr bl b bc
    have htail : encodeBitsSony 600 (d / 2) n ++ rest ≠ [] := by
      cases hh : encodeBitsSony 600 (d / 2) n ++ rest with
      | nil =>
        rcases List.append_eq_nil.1 hh with ⟨-, h2⟩
        exact absurd h2 hne
      | cons => simp
    have hmod : d % 2 ^ (n + 1) = d % 2 + 2 * (d / 2 % 2 ^ n) := by
      rw [pow_succ, mul_comm ((2 : ℕ) ^ n) 2]
      exact mod_two_mul d (2 ^ n) (by positivity)
    have hsplit : d % 2 = 0 ∨ d % 2 = 1 := by omega
    rcases hsplit with hd | hd
    · have hstep : sonyStepBody 600 600 (encodeBitsSony 600 (d / 2) n ++ rest) fr bl b bc
          = .cont fr bl b (bc + 1) := by
        rw [sonyStepBody]
        norm_num [T_SONY]
        exact sonyAfterBit_ne_nil htail
      simp only [encodeBitsSony, hd, List.cons_append]
      norm_num
      simp only [sonyLoop, hstep]
      rw [ih (d / 2) rest hne fr bl b (bc + 1)]
      rw [show b + d / 2 % 2 ^ n * 2 ^ (bc + 1) = b + d % 2 ^ (n + 1) * 2 ^ bc by
        rw [hmod, hd]; ring]
      rw [show bc + 1 + n = bc + (n + 1) by omega]
    · have hstep : sonyStepBody 600 1200 (encodeBitsSony 600 (d / 2) n ++ rest) fr bl b bc
          = .cont fr bl (b + 2 ^ bc) (bc + 1) := by
        rw [sonyStepBody]
        norm_num [T_SONY]
        exact sonyAfterBit_ne_nil htail
      simp only [encodeBitsSony, hd, List.cons_append]
      norm_num
      simp only [sonyLoop, hstep]
      rw [ih (d / 2) rest hne fr bl (b + 2 ^ bc) (bc + 1)]
      rw [show b + 2 ^ bc + d / 2 % 2 ^ n * 2 ^ (bc + 1) = b + d % 2 ^ (n + 1) * 2 ^ bc by
        rw [hmod, hd]; ring]
      rw [show bc + 1 + n = bc + (n + 1) by omega]

/-- Scanning the SONY encoding of the final `n ≥ 1` bits of the code runs the
final bit-count check and, on success, flushes the final frame. -/
theorem sonyLoop_last :
    ∀ (n d : ℕ), 1 ≤ n → ∀ (fr : List (List ℕ)) (bl : List ℕ) (b bc : ℕ),
      sonyLoop (encodeBitsSony 600 d n) fr bl b bc =
        if bc + n = 12 ∨ bc + n = 15 ∨ bc + n = 20 then
          .tuple .sony (fr ++ [bl ++ [(b + d % 2 ^ n * 2 ^ bc) % 128,
            (b + d % 2 ^ n * 2 ^ bc) / 128]])
        else .tuple .unknown [] := by
  intro n
  induction n with
  | zero => intro d h; exact absurd h (by omega)
  | succ n ih =>
    intro d _ fr bl b bc
    have hmod : d % 2 ^ (n + 1) = d % 2 + 2 * (d / 2 % 2 ^ n) := by
      rw [pow_succ, mul_comm ((2 : ℕ) ^ n) 2]
      exact mod_two_mul d (2 ^ n) (by positivity)
    have hsplit : d % 2 = 0 ∨ d % 2 = 1 := by omega
    cases n with
    | zero =>
      rcases hsplit with hd | hd <;>
        (simp only [encodeBitsSony, hd]
         norm_num
         simp only [sonyLoop, sonyStepBody, sonyAfterBit]
         norm_num [T_SONY, hd]
         split_ifs <;> rfl)
    | succ m =>
      have htail : encodeBitsSony 600 (d / 2) (m + 1) ≠ [] := by
        simp [encodeBitsSony]
      have hunf : encodeBitsSony 600 d (m + 1 + 1)
          = 600 :: (if d % 2 = 0 then (600 : ℤ) else 600 * 2)
            :: encodeBitsSony 600 (d / 2) (m + 1) := rfl
      rcases hsplit with hd | hd
      · have hstep : sonyStepBody 600 600 (encodeBitsSony 600 (d / 2) (m + 1)) fr bl b bc
            = .cont fr bl b (bc + 1) := by
          rw [sonyStepBody]
          norm_num [T_SONY]
          exact sonyAfterBit_ne_nil htail
        rw [hunf, if_pos hd, sonyLoop_cons_cons]
        simp only [hstep]
        rw [ih (d / 2) (by omega) fr bl b (bc + 1)]
        rw [show b + d / 2 % 2 ^ (m + 1) * 2 ^ (bc + 1)
              = b + d % 2 ^ (m + 1 + 1) * 2 ^ bc by rw [hmod, hd]; ring]
        rw [show bc + 1 + (m + 1) = bc + (m + 1 + 1) by omega]
      · have hstep : sonyStepBody 600 (600 * 2) (encodeBitsSony 600 (d / 2) (m + 1)) fr bl b bc
            = .cont fr bl (b + 2 ^ bc) (bc + 1) := by
          rw [sonyStepBody]
          norm_num [T_SONY]
          exact sonyAfterBit_ne_nil htail
        rw [hunf, if_neg (by omega), sonyLoop_cons_cons]
        simp only [hstep]
        rw [ih (d / 2) (by omega) fr bl (b + 2 ^ bc) (bc + 1)]
        rw [show b + 2 ^ bc + d / 2 % 2 ^ (m + 1) * 2 ^ (bc + 1)
              = b + d % 2 ^ (m + 1 + 1) * 2 ^ bc by rw [hmod, hd]; ring]
        rw [show bc + 1 + (m + 1) = bc + (m + 1 + 1) by omega]

/-- The timing code `encodeSonyLoop` produces on frames that all have at
least two entries (the successful path, with `first = false`). -/
def sonyStream : List (List ℕ) → ℕ → List ℤ
  | [], _ => []
  | frame :: rest, prevTC =>
    match frame with
    | a :: b :: _ =>
      waitVal .sony prevTC :: T_SONY * 4
        :: (encodeBitsSony T_SONY (a + b * 128) (sonyBits b)
          ++ sonyStream rest (4 + tCountBitsSony (a + b * 128) (sonyBits b)))
    | _ => []

theorem encodeSonyLoop_ok :
    ∀ (fs : List (List ℕ)), (∀ g ∈ fs, 2 ≤ g.length) → ∀ (prevTC : ℕ),
      encodeSonyLoop fs false prevTC = .ok (sonyStream fs prevTC) := by
  intro fs
  induction fs with
  | nil => intro _ _; rfl
  | cons g gs ih =>
    intro hv prevTC
    match g, hv g (by simp) with
    | a :: b :: grest, _ =>
      have hrec := ih (fun g2 h2 => hv g2 (by simp [h2]))
        (4 + tCountBitsSony (a + b * 128) (sonyBits b))
      simp only [encodeSonyLoop, hrec, sonyStream]
      simp

theorem tCountBitsSony_le (d : ℕ) : ∀ n, tCountBitsSony d n ≤ 3 * n := by
  intro n
  induction n generalizing d with
  | zero => simp [tCountBitsSony]
  | succ n ih =>
    rw [tCountBitsSony]
    have := ih (d / 2)
    split_ifs <;> omega

theorem sonyBits_cases (b : ℕ) : sonyBits b = 12 ∨ sonyBits b = 15 ∨ sonyBits b = 20 := by
  rw [sonyBits]
  split_ifs <;> simp

theorem sony_wait_big {tc : ℕ} (h : tc ≤ 64) : 5000 < waitVal .sony tc := by
  simp only [waitVal, pyround, T_SONY]
  have h2 : (tc : ℤ) ≤ 64 := by exact_mod_cast h
  omega

theorem sony_frame_tc_le (a b : ℕ) :
    4 + tCountBitsSony (a + b * 128) (sonyBits b) ≤ 64 := by
  have h1 := tCountBitsSony_le (a + b * 128) (sonyBits b)
  have h2 : sonyBits b ≤ 20 := by rw [sonyBits]; split_ifs <;> omega
  omega

theorem sony_d_lt {a b : ℕ} (ha : a < 128) (hb : b < 8192) :
    a + b * 128 < 2 ^ sonyBits b := by
  rw [sonyBits]
  split_ifs with h1 h2 <;> norm_num <;> omega

/-- Scanning one SONY frame's bits followed by the stream of the remaining
frames recovers every frame as `[low7, high]`. -/
theorem sonyLoop_chain :
    ∀ (fs : List (List ℕ)) (a b : ℕ) (fr : List (List ℕ)),
      a < 128 → b < 8192 →
      (∀ g ∈ fs, ∃ x y, g = [x, y] ∧ x < 128 ∧ y < 8192) →
      sonyLoop (encodeBitsSony 600 (a + b * 128) (sonyBits b)
          ++ sonyStream fs (4 + tCountBitsSony (a + b * 128) (sonyBits b))) fr [] 0 0
        = .tuple .sony (fr ++ [a, b] :: fs) := by
  intro fs
  induction fs with
  | nil =>
    intro a b fr ha hb _
    rw [show sonyStream [] (4 + tCountBitsSony (a + b * 128) (sonyBits b)) = [] from rfl]
    rw [List.append_nil]
    have hn : 1 ≤ sonyBits b := by rw [sonyBits]; split_ifs <;> norm_num
    rw [sonyLoop_last (sonyBits b) (a + b * 128) hn fr [] 0 0]
    rw [if_pos (by simpa using sonyBits_cases b)]
    have hd : (a + b * 128) % 2 ^ sonyBits b = a + b * 128 :=
      Nat.mod_eq_of_lt (sony_d_lt ha hb)
    have hm : (a + b * 128) % 128 = a := by
      rw [Nat.add_mul_mod_self_right, Nat.mod_eq_of_lt ha]
    have hdv : (a + b * 128) / 128 = b := by
      rw [Nat.add_mul_div_right a b (by norm_num : (0:ℕ) < 128), Nat.div_eq_of_lt ha]
      omega
    norm_num [hd, hm, hdv]
  | cons g gs ih =>
    intro a b fr ha hb hv
    obtain ⟨x, y, rfl, hx, hy⟩ := hv g (by simp)
    have hv2 : ∀ g2 ∈ gs, ∃ x2 y2, g2 = [x2, y2] ∧ x2 < 128 ∧ y2 < 8192 :=
      fun g2 h2 => hv g2 (by simp [h2])
    have hstream : sonyStream ([x, y] :: gs) (4 + tCountBitsSony (a + b * 128) (sonyBits b))
        = waitVal .sony (4 + tCountBitsSony (a + b * 128) (sonyBits b)) :: T_SONY * 4
          :: (encodeBitsSony T_SONY (x + y * 128) (sonyBits y)
            ++ sonyStream gs (4 + tCountBitsSony (x + y * 128) (sonyBits y))) := rfl
    rw [hstream]
    rw [sonyLoop_bits (sonyBits b) (a + b * 128) _ (by simp) fr [] 0 0]
    have hd : (a + b * 128) % 2 ^ sonyBits b = a + b * 128 :=
      Nat.mod_eq_of_lt (sony_d_lt ha hb)
    have hwait : 5000 < waitVal .sony (4 + tCountBitsSony (a + b * 128) (sonyBits b)) :=
      sony_wait_big (sony_frame_tc_le a b)
    have hbitsne : encodeBitsSony T_SONY (x + y * 128) (sonyBits y)
        ++ sonyStream gs (4 + tCountBitsSony (x + y * 128) (sonyBits y)) ≠ [] := by
      have h1 : 1 ≤ sonyBits y := by rw [sonyBits]; split_ifs <;> norm_num
      cases hsb : sonyBits y with
      | zero => omega
      | succ m => simp [encodeBitsSony]
    have hm : (a + b * 128) % 128 = a := by
      rw [Nat.add_mul_mod_self_right, Nat.mod_eq_of_lt ha]
    have hdv : (a + b * 128) / 128 = b := by
      rw [Nat.add_mul_div_right a b (by norm_num : (0:ℕ) < 128), Nat.div_eq_of_lt ha]
      omega
    have hstep : sonyStepBody (waitVal .sony (4 + tCountBitsSony (a + b * 128) (sonyBits b)))
        (T_SONY * 4)
        (encodeBitsSony T_SONY (x + y * 128) (sonyBits y)
          ++ sonyStream gs (4 + tCountBitsSony (x + y * 128) (sonyBits y)))
        fr [] (0 + (a + b * 128) % 2 ^ sonyBits b * 2 ^ 0) (0 + sonyBits b)
        = .cont (fr ++ [[a, b]]) [] 0 0 := by
      rw [sonyStepBody]
      rw [if_pos (by
        simp only [Bool.and_eq_true, decide_eq_true_eq]
        refine ⟨⟨hwait, by norm_num [T_SONY]⟩, ?_⟩
        simp [hbitsne])]
      rw [hd]
      norm_num [hm, hdv]
    rw [sonyLoop_cons_cons]
    simp only [hstep]
    have := ih x y (fr ++ [[a, b]]) hx hy hv2
    rw [show (600 : ℤ) = T_SONY from rfl] at this
    rw [this]
    simp

theorem encodeBitsSony_length (t : ℤ) : ∀ (n d : ℕ), (encodeBitsSony t d n).length = 2 * n := by
  intro n
  induction n with
  | zero => intro d; simp [encodeBitsSony]
  | succ n ih => intro d; simp [encodeBitsSony, ih (d / 2)]; omega

/-- Decoding a SONY encoding of valid `[low7, high]` frames recovers them. -/
theorem decode_encodeSony (fs : List (List ℕ)) (hne : fs ≠ [])
    (hv : ∀ g ∈ fs, ∃ x y, g = [x, y] ∧ x < 128 ∧ y < 8192) :
    ∃ c, encode .sony fs = .ok c ∧ decode c = .tuple .sony fs := by
  obtain ⟨f, fs2, rfl⟩ : ∃ f fs2, fs = f :: fs2 := by
    cases fs with
    | nil => exact absurd rfl hne
    | cons a b => exact ⟨a, b, rfl⟩
  obtain ⟨a, b, rfl, ha, hb⟩ := hv f (by simp)
  have hv2 : ∀ g ∈ fs2, ∃ x y, g = [x, y] ∧ x < 128 ∧ y < 8192 :=
    fun g h => hv g (by simp [h])
  have hlen2 : ∀ g ∈ fs2, 2 ≤ g.length := by
    intro g h
    obtain ⟨x, y, rfl, -, -⟩ := hv2 g h
    simp
  have hrec := encodeSonyLoop_ok fs2 hlen2 (4 + tCountBitsSony (a + b * 128) (sonyBits b))
  have hcode : encode .sony ([a, b] :: fs2)
      = .ok (T_SONY * 4 :: (encodeBitsSony T_SONY (a + b * 128) (sonyBits b)
        ++ sonyStream fs2 (4 + tCountBitsSony (a + b * 128) (sonyBits b)))) := by
    simp only [encode, encodeSonyLoop, hrec]
    simp
  refine ⟨_, hcode, ?_⟩
  obtain ⟨m, hsb⟩ : ∃ m, sonyBits b = m + 1 := by
    rcases sonyBits_cases b with h | h | h <;> rw [h] <;> exact ⟨_, rfl⟩
  have hsb12 : 12 ≤ sonyBits b := by
    rcases sonyBits_cases b with h | h | h <;> omega
  have hbits : encodeBitsSony T_SONY (a + b * 128) (sonyBits b)
      = 600 :: (if (a + b * 128) % 2 = 0 then (600 : ℤ) else 600 * 2)
        :: encodeBitsSony 600 ((a + b * 128) / 2) m := by
    rw [hsb]
    rfl
  have hlen : (T_SONY * 4 :: (encodeBitsSony T_SONY (a + b * 128) (sonyBits b)
      ++ sonyStream fs2 (4 + tCountBitsSony (a + b * 128) (sonyBits b)))).length
      = 1 + (2 * sonyBits b
        + (sonyStream fs2 (4 + tCountBitsSony (a + b * 128) (sonyBits b))).length) := by
    simp [encodeBitsSony_length]
    omega
  rw [decode]
  rw [if_neg (by rw [hlen]; omega)]
  rw [hbits]
  rw [if_neg (by norm_num [T_SONY, T_AEHA]), if_neg (by norm_num [T_SONY, T_NEC]),
    if_pos (by norm_num [T_SONY])]
  have hdrop : (T_SONY * 4 :: (600 :: (if (a + b * 128) % 2 = 0 then (600 : ℤ) else 600 * 2)
      :: encodeBitsSony 600 ((a + b * 128) / 2) m
        ++ sonyStream fs2 (4 + tCountBitsSony (a + b * 128) (sonyBits b)))).drop 1
      = encodeBitsSony 600 (a + b * 128) (sonyBits b)
        ++ sonyStream fs2 (4 + tCountBitsSony (a + b * 128) (sonyBits b)) := by
    rw [hsb]
    rfl
  rw [hdrop]
  have := sonyLoop_chain fs2 a b [] ha hb hv2
  rw [this]
  simp

/-- Structural validity under which the round-trip holds.  Compared with the
claim's validity, NEC additionally requires every non-final frame's unit
count to stay at or below 183 (`necOK`) and SONY bounds the high part by
`0x2000`; both restrictions are forced by `C1_cex`. -/
def ValidFrames : IRFormat → List (List ℕ) → Prop
  | .aeha, fs => fs ≠ [] ∧ ∀ f ∈ fs, f ≠ [] ∧ ∀ x ∈ f, x < 256
  | .nec, fs => (fs ≠ [] ∧ ∀ f ∈ fs, f ≠ [] ∧ ∀ x ∈ f, x < 256) ∧ necOK fs
  | .sony, fs => fs ≠ [] ∧ ∀ f ∈ fs, ∃ a b, f = [a, b] ∧ a < 128 ∧ b < 8192
  | .unknown, _ => False

/-- Claim C1 counterexample: two structurally valid inputs in the claim's
sense whose round-trip fails.  SONY `[[0, 0x2000]]` (low7 = 0 < 0x80)
encodes to 20 zero bits and decodes back to `[[0, 0]]`; NEC
`[[0xFF × 5], [0x00]]` drives the inter-frame wait down to exactly 5000 µs,
which the decoder's strict `> 5000` stop-bit test rejects, so the decode
fails entirely. -/
theorem C1_cex :
    (encode .sony [[0, 8192]] = .ok ([2400] ++ List.replicate 40 600) ∧
      decode ([2400] ++ List.replicate 40 600) = .tuple .sony [[0, 0]] ∧
      ([[0, 0]] : List (List ℕ)) ≠ [[0, 8192]]) ∧
    (encode .nec [[255, 255, 255, 255, 255], [0]]
        = .ok ([8960, 4480] ++ (List.replicate 40 ([560, 1680] : List ℤ)).flatten
          ++ [560, 5000, 8960, 4480] ++ List.replicate 17 (560 : ℤ)) ∧
      decode ([8960, 4480] ++ (List.replicate 40 ([560, 1680] : List ℤ)).flatten
          ++ [560, 5000, 8960, 4480] ++ List.replicate 17 (560 : ℤ))
        = .tuple .unknown []) := by
  exact ⟨⟨by decide, by decide, by decide⟩, by decide, by decide⟩

/-- Claim C1 (amended): for every supported format and `ValidFrames`-valid
frame sequence, `decode (encode fmt frames)` returns exactly
`(fmt, frames)`; and the claim's concrete NEC scenario holds as stated:
encoding `[[0x12, 0x34]]` yields the leader pair `(8960, 4480)`, 16
mark/space pairs for the bits of `0x12` then `0x34` LSB first, and a
trailing mark 560, and decoding that sequence returns
`(NEC, [[0x12, 0x34]])`. -/
theorem C1_roundtrip :
    (∀ (fmt : IRFormat) (fs : List (List ℕ)), ValidFrames fmt fs →
      ∃ c, encode fmt fs = .ok c ∧ decode c = .tuple fmt fs) ∧
    (encode .nec [[18, 52]] = .ok [8960, 4480,
        560, 560, 560, 1680, 560, 560, 560, 560, 560, 1680, 560, 560, 560, 560, 560, 560,
        560, 560, 560, 560, 560, 1680, 560, 560, 560, 1680, 560, 1680, 560, 560, 560, 560,
        560] ∧
      decode [8960, 4480,
        560, 560, 560, 1680, 560, 560, 560, 560, 560, 1680, 560, 560, 560, 560, 560, 560,
        560, 560, 560, 560, 560, 1680, 560, 560, 560, 1680, 560, 1680, 560, 560, 560, 560,
        560] = .tuple .nec [[18, 52]]) := by
  refine ⟨?_, by decide, by decide⟩
  intro fmt fs hv
  cases fmt with
  | unknown => exact absurd hv (by simp [ValidFrames])
  | aeha =>
    obtain ⟨hne, hb⟩ := hv
    exact ⟨_, rfl, decode_encodeAN .aeha (Or.inl rfl) fs hne hb (waitsOK_aeha fs)⟩
  | nec =>
    obtain ⟨⟨hne, hb⟩, hnec⟩ := hv
    exact ⟨_, rfl, decode_encodeAN .nec (Or.inr rfl) fs hne hb (waitsOK_nec fs hnec)⟩
  | sony =>
    obtain ⟨hne, hb⟩ := hv
    exact decode_encodeSony fs hne hb

theorem C1_witness :
    ∃ c, encode .aeha [[1]] = .ok c ∧ decode c = .tuple .aeha [[1]] :=
  C1_roundtrip.1 .aeha [[1]] (by
    refine ⟨by simp, ?_⟩
    intro f hf
    simp only [List.mem_singleton] at hf
    subst hf
    refine ⟨by simp, ?_⟩
    intro x hx
    simp only [List.mem_singleton] at hx
    omega)
